import Mathlib

/-!
Verification development for the migration property-test suite
(`migration.property.test.ts`, the single non-trivial source
module).  The suite checks four properties of a Vite-to-TanStack migration
with fast-check over the real filesystem:

* Property 1 — every file under the source `src/components` tree exists at
  the corresponding path in the target tree with the same name/extension;
* Property 2 — every `@/`- or `.`-prefixed import in a target component file
  resolves (with `.ts` / `.tsx` / `index.ts` / `index.tsx` fallbacks);
* Property 3 — every `@radix-ui/`-scoped dependency of the source manifest
  exists in the target manifest with a syntactically valid version;
* Property 4 — every CSS custom property declared in the concatenated source
  style sheets is declared in the target style sheet.

The embedding below models the filesystem as an abstract predicate
(`existsSync`) plus a content oracle (`readFile`), paths as `/`-separated
strings, the three JavaScript regexes of the suite as executable character
scanners with the backtracking priority of the JS engine, and the
fast-check driver (`fc.constantFrom` + `fc.assert` with `numRuns: 100`) as
sampling through an explicit stream of random numbers.
-/

/-- Character class of the JavaScript `\s` escape, restricted to the ASCII
whitespace characters that occur in source files (space, tab, newline,
carriage return, vertical tab, form feed). -/
def isSpaceChar (c : Char) : Bool :=
  c = ' ' || c = '\t' || c = '\n' || c = '\r' || c = '\x0b' || c = '\x0c'

/-- Character class `[\w-]` used by the CSS-variable regex: word characters
(ASCII letters, digits, underscore) and the hyphen. -/
def isNameChar (c : Char) : Bool :=
  c.isAlphanum || c = '_' || c = '-'

/-- Character class `['"]` used by the import regex for both quote marks. -/
def isQuoteChar (c : Char) : Bool :=
  c = '\'' || c = '"'

/-- Drop an expected pattern from the front of a character list, returning
the remainder on success.  This is the primitive behind the embedding of
`String.prototype.startsWith` and of anchored literal matching. -/
def stripPfx : List Char → List Char → Option (List Char)
  | [], cs => some cs
  | _ :: _, [] => none
  | p :: ps, c :: cs => if p = c then stripPfx ps cs else none

/-- Model of `String.prototype.startsWith`. -/
def strStartsWith (s pat : String) : Bool :=
  (stripPfx pat.data s.data).isSome

/-- Scan for an occurrence of `pat` anywhere in a character list; models
`String.prototype.includes`. -/
def hasInfix (pat : List Char) : List Char → Bool
  | [] => (stripPfx pat []).isSome
  | c :: rest => (stripPfx pat (c :: rest)).isSome || hasInfix pat rest

/-- Model of `String.prototype.includes`. -/
def containsStr (s pat : String) : Bool :=
  hasInfix pat.data s.data

/-- The abstract read-only filesystem the suite runs against: `existsSync`
answers existence queries, `readFile` returns UTF-8 contents
(`readFileSync(f, 'utf-8')`). -/
structure FS where
  existsSync : String → Bool
  readFile : String → String

/-- Model of the Node `path.join` function on already-normalized segments: the suite
only joins forward-slash paths, so joining inserts a single separator. -/
def pathJoin (a b : String) : String :=
  a ++ "/" ++ b

/-- Model of the Node `path.basename` function: the segment after the last slash. -/
def basenameChars (cs : List Char) : List Char :=
  (cs.reverse.takeWhile (fun c => !(c = '/' : Bool))).reverse

/-- String-level `path.basename`. -/
def basenameStr (s : String) : String :=
  String.mk (basenameChars s.data)

/-- Extension of a basename, following the Node `path.extname` convention:
empty when the basename has no dot or only a leading dot, otherwise the
suffix from the last dot on. -/
def extFrom (b : List Char) : String :=
  match b.reverse.dropWhile (fun c => !(c = '.' : Bool)) with
  | [] => ""
  | [_] => ""
  | _ :: _ :: _ =>
    String.mk ('.' :: (b.reverse.takeWhile (fun c => !(c = '.' : Bool))).reverse)

/-- Model of the Node `path.extname` function. -/
def extnameStr (s : String) : String :=
  extFrom (basenameChars s.data)

/-- Strip the optional `[\^~]?` range marker of the version regex
`/^[\^~]?\d+\.\d+\.\d+/` (Property 3, `isValidVersion`). -/
def stripRange (cs : List Char) : List Char :=
  match cs with
  | [] => []
  | c :: rest => if c = '^' ∨ c = '~' then rest else c :: rest

/-- Match `\d+` greedily at the front of the input (at least one digit,
then every following digit), returning the remainder. -/
def parseNum (cs : List Char) : Option (List Char) :=
  match cs with
  | [] => none
  | c :: rest => if c.isDigit then some (rest.dropWhile Char.isDigit) else none

/-- Match a literal dot at the front of the input. -/
def parseDot (cs : List Char) : Option (List Char) :=
  match cs with
  | [] => none
  | c :: rest => if c = '.' then some rest else none

/-- Match `\d+\.\d+\.\d+` at the front of the input.  Greedy matching is
faithful to the regex: a digit run is always followed in the pattern by a
dot or the end, and a dot is never a digit, so no backtracking of the
JavaScript engine can produce a match the greedy scan misses. -/
def matchVersionCore (cs : List Char) : Bool :=
  (((((parseNum cs).bind parseDot).bind parseNum).bind parseDot).bind parseNum).isSome

/-- The `isValidVersion` predicate of the suite (Property 3):
`/^[\^~]?\d+\.\d+\.\d+/.test(version)`.  The regex is unanchored at the
right, so it accepts any string that merely begins with the pattern. -/
def isValidVersion (s : String) : Bool :=
  matchVersionCore (stripRange s.data)

/-- Split a character list at every dot (components of a version string). -/
def splitDots : List Char → List (List Char)
  | [] => [[]]
  | c :: rest =>
    if c = '.' then [] :: splitDots rest
    else
      match splitDots rest with
      | [] => [[c]]
      | seg :: segs => (c :: seg) :: segs

/-- Modelled from the spec (the reading of §3 frozen in claim C3): a version specifier
is valid only when it is an optional caret or tilde range marker followed by
exactly three dot-separated nonempty digit components and nothing else. -/
def isValidVersionExact (s : String) : Bool :=
  match splitDots (stripRange s.data) with
  | [a, b, c] =>
    !a.isEmpty && a.all Char.isDigit && !b.isEmpty && b.all Char.isDigit &&
      !c.isEmpty && c.all Char.isDigit
  | _ => false

/-- A nonempty run of decimal digits. -/
def DigitRun (l : List Char) : Prop :=
  l ≠ [] ∧ ∀ c ∈ l, c.isDigit = true

/-- Relational reading of the unanchored version regex: the character list
begins with an optional caret or tilde, then three nonempty digit runs
separated by literal dots, and an arbitrary remainder. -/
def VersionForm (cs : List Char) : Prop :=
  ∃ pre d1 d2 d3 rest,
    (pre = [] ∨ pre = ['^'] ∨ pre = ['~']) ∧
    DigitRun d1 ∧ DigitRun d2 ∧ DigitRun d3 ∧
    cs = pre ++ (d1 ++ '.' :: (d2 ++ '.' :: (d3 ++ rest)))

/-- Association-list lookup in a parsed `package.json` `dependencies`
object (package name to version specifier). -/
def lookupDep : List (String × String) → String → Option String
  | [], _ => none
  | (k, v) :: rest, name => if k = name then some v else lookupDep rest name

/-- The Property 3 universe: dependency names of the source manifest that
begin with the `@radix-ui/` scope
(`Object.keys(sourcePackageJson.dependencies).filter(pkg => pkg.startsWith('@radix-ui/'))`). -/
def radixNames (m : List (String × String)) : List String :=
  (m.map Prod.fst).filter (fun k => strStartsWith k "@radix-ui/")

/-- Failure reasons of the per-package manifest check, in the order the
source asserts them: target membership (`toHaveProperty`), defined source
version, source version syntax, target version syntax. -/
inductive ManifestReason where
  | AbsentInTarget
  | SourceVersionUndefined
  | InvalidSourceVersion
  | InvalidTargetVersion
deriving DecidableEq

/-- The Property 3 per-package check.  A thrown `expect` failure is modelled
as the corresponding `ManifestReason`; falling through every assertion is
success. -/
def checkRadixPackage (src tgt : List (String × String)) (name : String) :
    Except ManifestReason Unit :=
  match lookupDep tgt name with
  | none => .error .AbsentInTarget
  | some targetVersion =>
    match lookupDep src name with
    | none => .error .SourceVersionUndefined
    | some sourceVersion =>
      if isValidVersion sourceVersion then
        if isValidVersion targetVersion then .ok ()
        else .error .InvalidTargetVersion
      else .error .InvalidSourceVersion

/-- Boolean form of the per-package check, the shape `fc.assert` consumes. -/
def checkRadixBool (src tgt : List (String × String)) (name : String) : Bool :=
  match checkRadixPackage src tgt name with
  | .ok _ => true
  | .error _ => false

/-- Model of the Node function `path.relative(base, p)` for the only use Property 1
makes of it: `p` is produced by the tree walk under `base`, so it always
has `base ++ "/"` as a prefix and the relative path is the remainder. -/
def relativeStr (base p : String) : String :=
  match stripPfx (base ++ "/").data p.data with
  | some r => String.mk r
  | none => p

/-- The Property 1 per-file predicate (lines 50-67 of the suite): for a
sampled source file under `src/components`, the corresponding target path
must exist and agree on basename and extension.  The three `expect`
assertions are modelled as a Boolean conjunction; a path outside the
components subtree passes the guard trivially, exactly as in the source. -/
def prop1Check (fs : FS) (sourceRoot targetRoot sourceFilePath : String) : Bool :=
  if containsStr sourceFilePath "/src/components/" then
    let sourceComponentsDir := pathJoin sourceRoot "src/components"
    let relativePath := relativeStr sourceComponentsDir sourceFilePath
    let targetPath := pathJoin (pathJoin targetRoot "src/components") relativePath
    fs.existsSync targetPath &&
      decide (basenameStr targetPath = basenameStr sourceFilePath) &&
      decide (extnameStr targetPath = extnameStr sourceFilePath)
  else true

/-- Error message fast-check raises when `fc.constantFrom` receives no
values (which is what spreading an empty universe produces). -/
def fcEmptyMsg : String := "fc.constantFrom expects at least one parameter"

/-- Model of `fc.constantFrom(...values)`: with at least one value it is an
arbitrary that maps a random number to a value of the list; with none it
throws. -/
def fcConstantFrom (xs : List α) : Except String (Nat → α) :=
  match xs with
  | [] => .error fcEmptyMsg
  | x :: rest => .ok (fun i => (x :: rest).getD (i % (x :: rest).length) x)

/-- Sample count of every property in the suite (`{ numRuns: 100 }`). -/
def fcNumRuns : Nat := 100

/-- Model of `fc.assert(fc.property(fc.constantFrom(...xs), pred), { numRuns: 100 })`.
The random source is an explicit stream of numbers (fast-check draws from a
seeded generator; the suite configures no seed, so the stream differs
between runs).  `.ok true` is a passing run, `.ok false` a failing one, and
`.error` a thrown property-construction error. -/
def fcAssert (stream : Nat → Nat) (xs : List α) (pred : α → Bool) :
    Except String Bool :=
  (fcConstantFrom xs).map
    (fun arb => (List.range fcNumRuns).all (fun k => pred (arb (stream k))))

/-- Property 1 as run by the suite, over an explicit universe of walked
source files. -/
def prop1Run (stream : Nat → Nat) (fs : FS) (allSourceFiles : List String)
    (sourceRoot targetRoot : String) : Except String Bool :=
  fcAssert stream allSourceFiles (prop1Check fs sourceRoot targetRoot)

/-- Property 3 as run by the suite. -/
def prop3Run (stream : Nat → Nat) (src tgt : List (String × String)) :
    Except String Bool :=
  fcAssert stream (radixNames src) (checkRadixBool src tgt)

/-- Lazy capture `(.+?)['"]` of the import regex: the shortest nonempty run
of non-newline characters whose successor is a quote.  Returns the capture
(accumulated in front of `acc`) and the input after the closing quote. -/
def capLazy (acc : List Char) : List Char → Option (String × List Char)
  | [] => none
  | c :: rest =>
    if c = '\n' ∨ c = '\r' then none
    else
      match rest with
      | [] => none
      | q :: r2 =>
        if isQuoteChar q then some (String.mk (c :: acc).reverse, r2)
        else capLazy (c :: acc) rest

/-- Match `['"](.+?)['"]` at the front of the input. -/
def matchQuoted (cs : List Char) : Option (String × List Char) :=
  match cs with
  | [] => none
  | q :: rest => if isQuoteChar q then capLazy [] rest else none

/-- Match `\s+from\s+['"](.+?)['"]` at the front of the input.  Both `\s+`
runs are greedy, and since neither `f` nor a quote is whitespace the greedy
run is the only decomposition the JS engine can use here. -/
def matchFromPart (cs : List Char) : Option (String × List Char) :=
  match cs.span isSpaceChar with
  | (w, r) =>
    if w.isEmpty then none
    else
      match stripPfx ['f', 'r', 'o', 'm'] r with
      | none => none
      | some r2 =>
        match r2.span isSpaceChar with
        | (w3, r3) => if w3.isEmpty then none else matchQuoted r3

/-- Lazy `.*?` of the import regex followed by `matchFromPart`: try the
empty chunk first, then extend one non-newline character at a time. -/
def matchALazy : List Char → Option (String × List Char)
  | [] => matchFromPart []
  | c :: rest =>
    match matchFromPart (c :: rest) with
    | some res => some res
    | none => if c = '\n' ∨ c = '\r' then none else matchALazy rest

/-- Greedy continuation of the first `\s+` after the `import` keyword: try
to extend the whitespace run first (regex priority of a greedy quantifier),
and once extension fails let the lazy chunk start at the current position. -/
def ws1Try : List Char → Option (String × List Char)
  | [] => matchALazy []
  | c :: rest =>
    if isSpaceChar c then
      match ws1Try rest with
      | some res => some res
      | none => matchALazy (c :: rest)
    else matchALazy (c :: rest)

/-- Match the tail of the import regex after the literal `import`: requires
at least one whitespace character, then proceeds with the greedy/lazy
interplay above. -/
def matchImportTail (cs : List Char) : Option (String × List Char) :=
  match cs with
  | [] => none
  | c :: rest => if isSpaceChar c then ws1Try rest else none

/-- Match `import\s+.*?\s+from\s+['"](.+?)['"]` anchored at the front of
the input, returning the captured specifier and the input after the match. -/
def matchImportAt (cs : List Char) : Option (String × List Char) :=
  match stripPfx ['i', 'm', 'p', 'o', 'r', 't'] cs with
  | some r => matchImportTail r
  | none => none

/-- Global scan of the import regex (`importRegex.exec` loop, lines 93-99):
find the leftmost match at or after the current position, record its
capture, continue after the match.  The fuel starts at the input length;
every step consumes at least one character, so the fuel never runs out. -/
def scanImportsFuel : Nat → List Char → List String
  | 0, _ => []
  | _ + 1, [] => []
  | fuel + 1, c :: rest =>
    match matchImportAt (c :: rest) with
    | some (cap, r) => cap :: scanImportsFuel fuel r
    | none => scanImportsFuel fuel rest

/-- All import specifiers extracted from the content of a file. -/
def extractImports (s : String) : List String :=
  scanImportsFuel s.data.length s.data

/-- The five resolution fallbacks of Property 2 for a candidate path: the
literal path, `.ts` and `.tsx` extensions, and the two index files. -/
def candidatePaths (p : String) : List String :=
  [p, p ++ ".ts", p ++ ".tsx", pathJoin p "index.ts", pathJoin p "index.tsx"]

/-- The `exists` disjunction of Property 2 (lines 120-124 and 132-136). -/
def candidateExists (fs : FS) (p : String) : Bool :=
  fs.existsSync p || fs.existsSync (p ++ ".ts") || fs.existsSync (p ++ ".tsx") ||
    fs.existsSync (pathJoin p "index.ts") || fs.existsSync (pathJoin p "index.tsx")

/-- Candidate path of an alias import: `importPath.replace('@/', 'src/')`
joined under the target root.  For the `@/`-prefixed strings this branch
receives, the first occurrence of `@/` is at position zero, so the
replacement is `src/` followed by the rest of the specifier. -/
def aliasTarget (targetRoot importPath : String) : String :=
  pathJoin targetRoot ("src/" ++ String.mk (importPath.data.drop 2))

/-- Candidate path of a relative import: resolved against the directory of
the referencing file, `join(join(componentFile, '..'), importPath)`. -/
def relativeTarget (componentFile importPath : String) : String :=
  pathJoin (pathJoin componentFile "..") importPath

/-- Outcome of checking one extracted import reference. -/
inductive ImportCheckResult where
  | pass
  | unresolved (file ref : String)
deriving DecidableEq

/-- The Property 2 per-import check (lines 102-139): skip external
references, skip `@/assets` references (pending asset migration), resolve
alias references under the target root, resolve relative references against
the referencing file, and report a violation when no fallback exists. -/
def checkImport (fs : FS) (targetRoot componentFile importPath : String) :
    ImportCheckResult :=
  if !(strStartsWith importPath ".") && !(strStartsWith importPath "@/") then
    .pass
  else if strStartsWith importPath "@/assets" then
    .pass
  else if strStartsWith importPath "@/" then
    if candidateExists fs (aliasTarget targetRoot importPath) then .pass
    else .unresolved componentFile importPath
  else
    if candidateExists fs (relativeTarget componentFile importPath) then .pass
    else .unresolved componentFile importPath

/-- The Property 2 per-file predicate: every extracted import of the file
passes the check. -/
def prop2FileCheck (fs : FS) (targetRoot componentFile : String) : Bool :=
  (extractImports (fs.readFile componentFile)).all
    (fun p => checkImport fs targetRoot componentFile p = ImportCheckResult.pass)

/-- Property 2 as run by the suite, over an explicit universe of target
component files. -/
def prop2Run (stream : Nat → Nat) (fs : FS) (componentFiles : List String)
    (targetRoot : String) : Except String Bool :=
  fcAssert stream componentFiles (prop2FileCheck fs targetRoot)

/-- Match the CSS custom-property regex `--([\w-]+)\s*:` anchored at the
front of the input: two hyphens, a greedy nonempty run of `[\w-]`
characters, optional whitespace, then a colon.  The character classes of
the run, the whitespace, and the colon are pairwise disjoint, so the greedy
scan is the only decomposition the JS engine can use.  Returns the captured
name and the input after the match. -/
def tryMatchVar : List Char → Option (String × List Char)
  | c1 :: c2 :: rest =>
    if c1 = '-' then
      if c2 = '-' then
        match rest.takeWhile isNameChar with
        | [] => none
        | n :: nm =>
          match (rest.dropWhile isNameChar).dropWhile isSpaceChar with
          | c :: r2 => if c = ':' then some (String.mk (n :: nm), r2) else none
          | [] => none
      else none
    else none
  | _ => none

/-- Global scan of the CSS-variable regex (`cssVariableRegex.exec` loop,
lines 212-218): collect every capture left to right, continuing after each
match.  Fuel starts at the input length and every step consumes at least
one character. -/
def scanVarsFuel : Nat → List Char → List String
  | 0, _ => []
  | _ + 1, [] => []
  | fuel + 1, c :: rest =>
    match tryMatchVar (c :: rest) with
    | some (nm, r) => nm :: scanVarsFuel fuel r
    | none => scanVarsFuel fuel rest

/-- All CSS custom-property names declared in a style-sheet text, in match
order and with repetitions. -/
def extractNames (s : String) : List String :=
  scanVarsFuel s.data.length s.data

/-- The declared-name set of a style-sheet text (`new Set` plus `add` in
the source collapses repetitions). -/
def sourceVariablesOf (s : String) : Finset String :=
  (extractNames s).toFinset

/-- Concatenation of two style-sheet texts as the suite performs it
(line 205: `sourceAppCss + '\n' + sourceIndexCss`). -/
def combineCss (a b : String) : String :=
  a ++ "\n" ++ b

/-- Match `--<name>\s*:` (the `variablePattern` of Property 4) anchored at
the front of the input. -/
def matchVarAt (nm : String) (cs : List Char) : Bool :=
  match stripPfx ('-' :: '-' :: nm.data) cs with
  | some r =>
    match r.dropWhile isSpaceChar with
    | c :: _ => c = ':'
    | [] => false
  | none => false

/-- Scan every position of the input for `matchVarAt`; models
`variablePattern.test(targetCss)` (lines 229-230). -/
def testVarPattern (nm : String) : List Char → Bool
  | [] => false
  | c :: rest => matchVarAt nm (c :: rest) || testVarPattern nm rest

/-- Does the target style-sheet text declare the given custom property? -/
def cssVarTest (nm target : String) : Bool :=
  testVarPattern nm target.data

/-- Modelled from the spec (§4.4 verification contract `preserved`): the
source names whose declaration the target text lacks.  The suite itself
asserts per-sampled-name; this collects the failing names as the spec's
contract returns them. -/
def unpreservedNames (sourceSymbols : List String) (targetText : String) :
    List String :=
  sourceSymbols.filter (fun n => !(cssVarTest n targetText))

/-- Property 4 as run by the suite: sample names extracted from the
combined source style sheets, test each against the target style sheet. -/
def prop4Run (stream : Nat → Nat) (sourceCss targetCss : String) :
    Except String Bool :=
  fcAssert stream (extractNames sourceCss).dedup (fun nm => cssVarTest nm targetCss)

/-- A character that can end no partial match of the CSS-variable regex:
neither a `[\w-]` name character nor whitespace.  A declaration of the
regex can only straddle a text junction if the character just before the
junction is one of those two classes. -/
def safeEndChar (c : Char) : Bool :=
  !(isNameChar c || isSpaceChar c)

/-- Every character list ending in a junction-safe character (vacuously
true for the empty list). -/
def EndsSafe (l : List Char) : Prop :=
  ∀ c, l.getLast? = some c → safeEndChar c = true

/-- Boolean junction safety of a style-sheet text. -/
def endsSafeStr (s : String) : Bool :=
  match s.data.getLast? with
  | none => true
  | some c => safeEndChar c

/-- Filesystem for the two-run counterexample: only the migrated `a.tsx`
exists on the target side. -/
def fsOneTarget : FS :=
  ⟨fun q => decide (q = "T/src/components/a.tsx"), fun _ => ""⟩

/-- Filesystem for the assets-exemption counterexample: nothing exists on
disk, and the sampled component imports an asset through the alias. -/
def fsAssetsOnly : FS :=
  ⟨fun _ => false, fun _ => "import logo from \"@/assets/logo.png\""⟩

/-- Filesystem whose sampled component has one unresolvable relative
import. -/
def fsMissing : FS :=
  ⟨fun _ => false, fun _ => "import x from \"./missing\""⟩

/-- Filesystem where exactly `T/src/lib/utils.ts` exists, the `.ts`
fallback of the alias import `@/lib/utils` under target root `T`. -/
def fsUtil : FS :=
  ⟨fun q => decide (q = "T/src/lib/utils.ts"), fun _ => ""⟩

theorem stripPfx_eq_some (p : List Char) :
    ∀ cs r, stripPfx p cs = some r ↔ cs = p ++ r := by
  induction p with
  | nil =>
    intro cs r
    constructor
    · intro h
      cases h
      rfl
    · intro h
      cases h
      rfl
  | cons a ps ih =>
    intro cs r
    cases cs with
    | nil =>
      constructor
      · intro h
        cases h
      · intro h
        cases h
    | cons c cs' =>
      constructor
      · intro h
        by_cases hac : a = c
        · subst hac
          simp only [stripPfx, if_pos rfl] at h
          have := (ih cs' r).mp h
          simp [this]
        · simp [stripPfx, hac] at h
      · intro h
        simp only [List.cons_append, List.cons.injEq] at h
        obtain ⟨h1, h2⟩ := h
        subst h1
        simp only [stripPfx, if_pos rfl]
        exact (ih cs' r).mpr h2

theorem stripPfx_self_append (p r : List Char) : stripPfx p (p ++ r) = some r :=
  (stripPfx_eq_some p (p ++ r) r).mpr rfl

theorem strStartsWith_iff (s pat : String) :
    strStartsWith s pat = true ↔ ∃ r, s.data = pat.data ++ r := by
  unfold strStartsWith
  cases h : stripPfx pat.data s.data with
  | none =>
    simp only [Option.isSome_none, Bool.false_eq_true, false_iff]
    rintro ⟨r, hr⟩
    rw [(stripPfx_eq_some pat.data s.data r).mpr hr] at h
    cases h
  | some r =>
    simp only [Option.isSome_some, true_iff]
    exact ⟨r, (stripPfx_eq_some pat.data s.data r).mp h⟩

theorem hasInfix_here {pat cs : List Char} (h : (stripPfx pat cs).isSome = true) :
    hasInfix pat cs = true := by
  cases cs with
  | nil => exact h
  | cons c rest => simp [hasInfix, h]

theorem hasInfix_tail {pat rest : List Char} (c : Char)
    (h : hasInfix pat rest = true) : hasInfix pat (c :: rest) = true := by
  simp [hasInfix, h]

theorem hasInfix_of_surround (pat left right : List Char) :
    hasInfix pat (left ++ (pat ++ right)) = true := by
  induction left with
  | nil =>
    apply hasInfix_here
    rw [List.nil_append, stripPfx_self_append]
    rfl
  | cons c cs ih =>
    rw [List.cons_append]
    exact hasInfix_tail c ih

theorem pathJoin_data (a b : String) :
    (pathJoin a b).data = a.data ++ '/' :: b.data := by
  cases a with
  | mk la =>
    cases b with
    | mk lb =>
      show (String.mk la ++ "/" ++ String.mk lb).data = _
      simp [String.instAppend, String.append, pathJoin]

theorem takeWhile_append_break {p : α → Bool} {a : α} (h : p a = false) :
    ∀ (l m : List α), ((l ++ a :: m).takeWhile p) = l.takeWhile p := by
  intro l
  induction l with
  | nil =>
    intro m
    simp [List.takeWhile_cons, h]
  | cons c cs ih =>
    intro m
    by_cases hc : p c
    · simp [List.takeWhile_cons, hc, ih]
    · simp [List.takeWhile_cons, hc]

theorem basenameChars_append (l m : List Char) :
    basenameChars (l ++ '/' :: m) = basenameChars m := by
  unfold basenameChars
  rw [List.reverse_append, List.reverse_cons, List.append_assoc]
  simp only [List.singleton_append]
  rw [takeWhile_append_break (by decide)]

theorem dropWhile_all_append {p : α → Bool} :
    ∀ (l m : List α), (∀ c ∈ l, p c = true) →
      (l ++ m).dropWhile p = m.dropWhile p := by
  intro l
  induction l with
  | nil => intro m _; rfl
  | cons c cs ih =>
    intro m h
    have hc : p c = true := h c (List.mem_cons_self c cs)
    simp only [List.cons_append, List.dropWhile_cons, hc, if_true]
    exact ih m fun d hd => h d (List.mem_cons_of_mem c hd)

theorem mem_takeWhile_sat {p : α → Bool} :
    ∀ (l : List α) (a : α), a ∈ l.takeWhile p → p a = true := by
  intro l
  induction l with
  | nil => intro a h; cases h
  | cons c cs ih =>
    intro a h
    by_cases hc : p c
    · rw [List.takeWhile_cons_of_pos hc] at h
      rcases List.mem_cons.mp h with h1 | h2
      · rw [h1]; exact hc
      · exact ih a h2
    · rw [List.takeWhile_cons_of_neg hc] at h
      cases h

theorem parseNum_some (cs r : List Char) (h : parseNum cs = some r) :
    ∃ d, DigitRun d ∧ cs = d ++ r := by
  cases cs with
  | nil => cases h
  | cons c rest =>
    by_cases hc : c.isDigit
    · simp only [parseNum, hc, if_true, Option.some.injEq] at h
      refine ⟨c :: rest.takeWhile Char.isDigit, ⟨by simp, ?_⟩, ?_⟩
      · intro d hd
        rcases List.mem_cons.mp hd with h1 | h2
        · rw [h1]; exact hc
        · exact mem_takeWhile_sat rest d h2
      · rw [← h, List.cons_append, List.takeWhile_append_dropWhile]
    · simp [parseNum, hc] at h

theorem parseNum_digitRun (d rest : List Char) (hd : DigitRun d) :
    parseNum (d ++ rest) = some (rest.dropWhile Char.isDigit) := by
  obtain ⟨hne, hall⟩ := hd
  cases d with
  | nil => cases hne rfl
  | cons c cs =>
    have hc : c.isDigit = true := hall c (List.mem_cons_self c cs)
    simp only [List.cons_append, parseNum, hc, if_true, Option.some.injEq]
    exact dropWhile_all_append cs rest fun x hx => hall x (List.mem_cons_of_mem c hx)

theorem parseDot_some (cs r : List Char) (h : parseDot cs = some r) :
    cs = '.' :: r := by
  cases cs with
  | nil => cases h
  | cons c rest =>
    by_cases hc : c = '.'
    · simp only [parseDot, hc, if_true, Option.some.injEq] at h
      rw [hc, h]
    · simp [parseDot, hc] at h

theorem isValidVersion_iff (s : String) :
    isValidVersion s = true ↔ VersionForm s.data := by
  constructor
  · intro h
    unfold isValidVersion matchVersionCore at h
    cases h1 : parseNum (stripRange s.data) with
    | none => rw [h1] at h; cases h
    | some r1 =>
      rw [h1] at h
      simp only [Option.some_bind] at h
      cases h2 : parseDot r1 with
      | none => rw [h2] at h; cases h
      | some r2 =>
        rw [h2] at h
        simp only [Option.some_bind] at h
        cases h3 : parseNum r2 with
        | none => rw [h3] at h; cases h
        | some r3 =>
          rw [h3] at h
          simp only [Option.some_bind] at h
          cases h4 : parseDot r3 with
          | none => rw [h4] at h; cases h
          | some r4 =>
            rw [h4] at h
            simp only [Option.some_bind] at h
            cases h5 : parseNum r4 with
            | none => rw [h5] at h; cases h
            | some r5 =>
              obtain ⟨d1, hd1, he1⟩ := parseNum_some _ _ h1
              obtain ⟨d2, hd2, he2⟩ := parseNum_some _ _ h3
              obtain ⟨d3, hd3, he3⟩ := parseNum_some _ _ h5
              have he2' := parseDot_some _ _ h2
              have he4' := parseDot_some _ _ h4
              have hcore : stripRange s.data =
                  d1 ++ '.' :: (d2 ++ '.' :: (d3 ++ r5)) := by
                rw [he1, he2', he2, he4', he3]
              cases hsd : s.data with
              | nil =>
                rw [hsd] at hcore
                simp only [stripRange] at hcore
                obtain ⟨hne, _⟩ := hd1
                cases d1 with
                | nil => cases hne rfl
                | cons a as => cases hcore
              | cons c tail =>
                by_cases hc : c = '^' ∨ c = '~'
                · refine ⟨[c], d1, d2, d3, r5, ?_, hd1, hd2, hd3, ?_⟩
                  · rcases hc with h' | h'
                    · right; left; rw [h']
                    · right; right; rw [h']
                  · rw [hsd] at hcore
                    simp only [stripRange, hc, if_true] at hcore
                    rw [hcore, List.singleton_append]
                · refine ⟨[], d1, d2, d3, r5, Or.inl rfl, hd1, hd2, hd3, ?_⟩
                  rw [hsd] at hcore
                  simp only [stripRange, hc, if_false] at hcore
                  rw [List.nil_append, hcore]
  · rintro ⟨pre, d1, d2, d3, rest, hpre, hd1, hd2, hd3, heq⟩
    have hstrip : stripRange s.data = d1 ++ '.' :: (d2 ++ '.' :: (d3 ++ rest)) := by
      rcases hpre with h' | h' | h'
      · rw [heq, h', List.nil_append]
        obtain ⟨hne, hall⟩ := hd1
        cases d1 with
        | nil => cases hne rfl
        | cons a as =>
          have ha : a.isDigit = true := hall a (List.mem_cons_self a as)
          have hnot : ¬(a = '^' ∨ a = '~') := by
            rintro (h'' | h'') <;> rw [h''] at ha <;> cases ha
          simp [stripRange, hnot]
      · rw [heq, h']
        simp [stripRange]
      · rw [heq, h']
        simp [stripRange]
    unfold isValidVersion matchVersionCore
    rw [hstrip, parseNum_digitRun d1 _ hd1]
    rw [List.dropWhile_cons_of_neg (by decide)]
    simp only [Option.some_bind, parseDot, eq_self_iff_true, if_true]
    rw [parseNum_digitRun d2 _ hd2]
    rw [List.dropWhile_cons_of_neg (by decide)]
    simp only [Option.some_bind, parseDot, eq_self_iff_true, if_true]
    rw [parseNum_digitRun d3 _ hd3]
    rfl

theorem strData_append (s t : String) : (s ++ t).data = s.data ++ t.data := by
  cases s with
  | mk l1 =>
    cases t with
    | mk l2 => rfl

theorem strMk_data (s : String) : String.mk s.data = s := by
  cases s with
  | mk l => rfl

theorem combineCss_data (a b : String) :
    (combineCss a b).data = a.data ++ '\n' :: b.data := by
  unfold combineCss
  rw [strData_append, strData_append, List.append_assoc]
  rfl

theorem getLast?_cons_of_ne (a : α) (l : List α) (h : l ≠ []) :
    (a :: l).getLast? = l.getLast? := by
  cases l with
  | nil => cases h rfl
  | cons b m => simp [List.getLast?]

theorem getLast?_mem : ∀ (l : List α) (c : α), l.getLast? = some c → c ∈ l := by
  intro l
  induction l with
  | nil => intro c h; cases h
  | cons a m ih =>
    intro c h
    cases m with
    | nil =>
      simp only [List.getLast?_singleton, Option.some.injEq] at h
      rw [← h]
      exact List.mem_singleton_self a
    | cons b m' =>
      rw [getLast?_cons_of_ne a (b :: m') (by simp)] at h
      exact List.mem_cons_of_mem a (ih c h)

theorem getLast?_of_ne_nil (l : List α) (h : l ≠ []) : ∃ c, l.getLast? = some c := by
  induction l with
  | nil => cases h rfl
  | cons a m ih =>
    cases m with
    | nil => exact ⟨a, by simp⟩
    | cons b m' =>
      obtain ⟨c, hc⟩ := ih (by simp)
      exact ⟨c, by rw [getLast?_cons_of_ne a (b :: m') (by simp)]; exact hc⟩

theorem length_dropWhile_le (p : α → Bool) :
    ∀ l : List α, (l.dropWhile p).length ≤ l.length := by
  intro l
  induction l with
  | nil => simp [List.dropWhile]
  | cons a m ih =>
    by_cases h : p a
    · rw [List.dropWhile_cons_of_pos h]
      exact Nat.le_trans ih (Nat.le_succ _)
    · rw [List.dropWhile_cons_of_neg h]

theorem takeWhile_app_of_stop {p : α → Bool} :
    ∀ (l m : List α), (∃ c ∈ l, p c = false) →
      (l ++ m).takeWhile p = l.takeWhile p := by
  intro l
  induction l with
  | nil =>
    rintro m ⟨c, hc, _⟩
    cases hc
  | cons a l' ih =>
    rintro m ⟨c, hc, hpc⟩
    by_cases ha : p a
    · rw [List.cons_append, List.takeWhile_cons_of_pos ha,
        List.takeWhile_cons_of_pos ha]
      have hcl' : c ∈ l' := by
        rcases List.mem_cons.mp hc with h1 | h2
        · rw [h1] at hpc; rw [hpc] at ha; cases ha
        · exact h2
      rw [ih m ⟨c, hcl', hpc⟩]
    · rw [List.cons_append, List.takeWhile_cons_of_neg ha,
        List.takeWhile_cons_of_neg ha]

theorem dropWhile_app_of_stop {p : α → Bool} :
    ∀ (l m : List α), (∃ c ∈ l, p c = false) →
      (l ++ m).dropWhile p = l.dropWhile p ++ m ∧ l.dropWhile p ≠ [] := by
  intro l
  induction l with
  | nil =>
    rintro m ⟨c, hc, _⟩
    cases hc
  | cons a l' ih =>
    rintro m ⟨c, hc, hpc⟩
    by_cases ha : p a
    · rw [List.cons_append, List.dropWhile_cons_of_pos ha,
        List.dropWhile_cons_of_pos ha]
      have hcl' : c ∈ l' := by
        rcases List.mem_cons.mp hc with h1 | h2
        · rw [h1] at hpc; rw [hpc] at ha; cases ha
        · exact h2
      exact ih m ⟨c, hcl', hpc⟩
    · rw [List.cons_append, List.dropWhile_cons_of_neg ha,
        List.dropWhile_cons_of_neg ha]
      exact ⟨rfl, by simp⟩

theorem getLast?_dropWhile {p : α → Bool} :
    ∀ l : List α, l.dropWhile p ≠ [] → (l.dropWhile p).getLast? = l.getLast? := by
  intro l
  induction l with
  | nil => intro h; cases h rfl
  | cons a l' ih =>
    intro h
    by_cases ha : p a
    · rw [List.dropWhile_cons_of_pos ha] at h ⊢
      have hl' : l' ≠ [] := by
        intro he
        rw [he] at h
        exact h rfl
      rw [ih h, getLast?_cons_of_ne a l' hl']
    · rw [List.dropWhile_cons_of_neg ha]

theorem getD_mem_or_eq (l : List α) : ∀ (n : Nat) (d : α), l.getD n d ∈ l ∨ l.getD n d = d := by
  induction l with
  | nil => intro n d; right; cases n <;> rfl
  | cons a m ih =>
    intro n d
    cases n with
    | zero => left; simp
    | succ k =>
      rcases ih k d with h | h
      · left
        simp only [List.getD_cons_succ]
        exact List.mem_cons_of_mem a h
      · right
        simp only [List.getD_cons_succ]
        exact h

theorem getD_mem (l : List α) (n : Nat) (d : α) (hd : d ∈ l) : l.getD n d ∈ l := by
  rcases getD_mem_or_eq l n d with h | h
  · exact h
  · rw [h]; exact hd

/-- C1 (counterexample): a source manifest whose dependencies contain no
`@radix-ui/`-scoped name yields an empty universe, and running Property 3
on it raises the `fc.constantFrom` error instead of passing vacuously. -/
theorem c1_empty_universe_counterexample :
    radixNames [("vue", "^3.0.0")] = [] ∧
    prop3Run (fun _ => 0) [("vue", "^3.0.0")]
        [("@radix-ui/react-dialog", "^1.1.2")] = .error fcEmptyMsg := by
  constructor
  · rfl
  · rfl

/-- C1 (amended): with an empty candidate universe — no walked source
component files, or no Radix-scoped dependency names — the property run
errors out while constructing the sampling arbitrary (`fc.constantFrom`
requires at least one value); there is no explicit vacuous-pass handling. -/
theorem c1_empty_universe_errors (stream : Nat → Nat) (fs : FS)
    (sourceRoot targetRoot : String) (src tgt : List (String × String)) :
    prop1Run stream fs [] sourceRoot targetRoot = .error fcEmptyMsg
    ∧ (radixNames src = [] → prop3Run stream src tgt = .error fcEmptyMsg) := by
  constructor
  · rfl
  · intro h
    unfold prop3Run fcAssert
    rw [h]
    rfl

/-- C1 (witness): the amended statement at a concrete stream, filesystem,
and manifest without Radix-scoped dependencies. -/
theorem c1_empty_universe_witness :
    prop1Run (fun _ => 0) fsOneTarget [] "S" "T" = .error fcEmptyMsg
    ∧ prop3Run (fun _ => 0) [("left-pad", "1.0.0")] [] = .error fcEmptyMsg :=
  ⟨(c1_empty_universe_errors (fun _ => 0) fsOneTarget "S" "T"
      [("left-pad", "1.0.0")] []).1,
   (c1_empty_universe_errors (fun _ => 0) fsOneTarget "S" "T"
      [("left-pad", "1.0.0")] []).2 (by decide)⟩

/-- C3 (counterexample): the version regex is unanchored on the right, so a
specifier with trailing characters after the three numeric components still
satisfies the validity predicate of the suite, while the exact form of the spec
rejects it. -/
theorem c3_version_syntax_counterexample :
    isValidVersion "1.2.3rc" = true ∧ isValidVersionExact "1.2.3rc" = false := by
  constructor
  · rfl
  · rfl

/-- C3 (amended): the validity predicate holds exactly when the specifier
BEGINS with an optional caret or tilde range marker followed by a
three-component numeric version; arbitrary trailing characters are
accepted. -/
theorem c3_version_syntax_amended (s : String) :
    isValidVersion s = true ↔ VersionForm s.data :=
  isValidVersion_iff s

/-- C3 (witness): the amended characterization applied at a concrete
specifier with a range marker and a trailing pre-release tag. -/
theorem c3_version_syntax_witness : isValidVersion "~0.12.34-beta" = true :=
  (c3_version_syntax_amended "~0.12.34-beta").mpr
    ⟨['~'], ['0'], ['1', '2'], ['3', '4'], ['-', 'b', 'e', 't', 'a'],
      Or.inr (Or.inr rfl), ⟨by decide, by decide⟩, ⟨by decide, by decide⟩,
      ⟨by decide, by decide⟩, by decide⟩

/-- C6: for a dependency name of the source manifest that passes the
`@radix-ui/` scope filter, the Property 3 check succeeds exactly when the
name is a key of the target dependencies and both version specifiers
satisfy the syntax predicate — no numeric compatibility between the two
versions is consulted — and a name absent from the target fails with
`AbsentInTarget`. -/
theorem c6_manifest_check_iff (src tgt : List (String × String))
    (name sv : String) (_hmem : name ∈ radixNames src)
    (hsv : lookupDep src name = some sv) :
    (checkRadixPackage src tgt name = .ok () ↔
      ∃ tv, lookupDep tgt name = some tv ∧
        isValidVersion sv = true ∧ isValidVersion tv = true)
    ∧ (lookupDep tgt name = none →
        checkRadixPackage src tgt name = .error .AbsentInTarget) := by
  constructor
  · cases htv : lookupDep tgt name with
    | none => simp [checkRadixPackage, htv]
    | some tv =>
      simp only [checkRadixPackage, htv, hsv]
      by_cases h1 : isValidVersion sv = true
      · by_cases h2 : isValidVersion tv = true
        · simp [h1, h2]
        · simp [h1, h2]
      · simp [h1]
  · intro h
    simp [checkRadixPackage, h]

/-- C6 (witness): the example scenario of the claim — source `^1.0.0` against
target `^1.1.2` passes without any compatibility comparison, and a target
missing the key fails with `AbsentInTarget`. -/
theorem c6_manifest_check_witness :
    checkRadixPackage [("@radix-ui/react-dialog", "^1.0.0")]
        [("@radix-ui/react-dialog", "^1.1.2")] "@radix-ui/react-dialog" = .ok ()
    ∧ checkRadixPackage [("@radix-ui/react-dialog", "^1.0.0")] []
        "@radix-ui/react-dialog" = .error .AbsentInTarget := by
  constructor
  · exact (c6_manifest_check_iff [("@radix-ui/react-dialog", "^1.0.0")]
      [("@radix-ui/react-dialog", "^1.1.2")] "@radix-ui/react-dialog" "^1.0.0"
      (by decide) (by decide)).1.mpr ⟨"^1.1.2", by decide, by decide, by decide⟩
  · exact (c6_manifest_check_iff [("@radix-ui/react-dialog", "^1.0.0")] []
      "@radix-ui/react-dialog" "^1.0.0" (by decide) (by decide)).2 (by decide)

/-- C4 (counterexample): Property 1 run twice against the same unchanged
trees — two source files of which only one is migrated — produces a passing
run under one random stream and a failing run under another, so the
outcome of the unseeded sampling is not a function of the trees alone. -/
theorem c4_two_run_counterexample :
    prop1Run (fun _ => 0) fsOneTarget
        ["S/src/components/a.tsx", "S/src/components/b.tsx"] "S" "T" = .ok true
    ∧ prop1Run (fun _ => 1) fsOneTarget
        ["S/src/components/a.tsx", "S/src/components/b.tsx"] "S" "T" = .ok false := by
  constructor
  · rfl
  · rfl

/-- C4 (amended): the sampling outcome is a function of the random stream;
two runs agree whenever they use the same stream, and they agree regardless
of the stream whenever every element of the universe satisfies the sampled
predicate.  With no seed configured and a universe containing both a
passing and a failing element, two runs can disagree. -/
theorem c4_determinism_amended {α : Type} (s1 s2 : Nat → Nat) (xs : List α)
    (pred : α → Bool) (h : ∀ x ∈ xs, pred x = true) :
    fcAssert s1 xs pred = fcAssert s2 xs pred := by
  cases xs with
  | nil => rfl
  | cons x rest =>
    unfold fcAssert fcConstantFrom
    have hall : ∀ s : Nat → Nat,
        ((List.range fcNumRuns).all
          (fun k => pred ((x :: rest).getD (s k % (x :: rest).length) x))) = true := by
      intro s
      rw [List.all_eq_true]
      intro k _
      exact h _ (getD_mem (x :: rest) _ x (List.mem_cons_self x rest))
    simp only [Except.map]
    rw [hall s1, hall s2]

/-- C4 (witness): the amended statement at a concrete universe whose single
element passes, under two different streams. -/
theorem c4_determinism_witness :
    fcAssert (fun _ => 0) ["u"] (fun _ => true) =
      fcAssert (fun k => k + 7) ["u"] (fun _ => true) :=
  c4_determinism_amended (fun _ => 0) (fun k => k + 7) ["u"] (fun _ => true)
    (fun _ _ => rfl)

theorem candidateExists_eq_any (fs : FS) (p : String) :
    candidateExists fs p = (candidatePaths p).any fs.existsSync := by
  simp [candidateExists, candidatePaths, List.any, Bool.or_assoc]

theorem candidateExists_true_iff (fs : FS) (p : String) :
    candidateExists fs p = true ↔
      ∃ q ∈ candidatePaths p, fs.existsSync q = true := by
  rw [candidateExists_eq_any]
  exact List.any_eq_true

theorem candidateExists_false_iff (fs : FS) (p : String) :
    candidateExists fs p = false ↔
      ∀ q ∈ candidatePaths p, fs.existsSync q = false := by
  constructor
  · intro h q hq
    cases hv : fs.existsSync q with
    | false => rfl
    | true =>
      have := (candidateExists_true_iff fs p).mpr ⟨q, hq, hv⟩
      rw [h] at this
      cases this
  · intro h
    cases hc : candidateExists fs p with
    | false => rfl
    | true =>
      obtain ⟨q, hq, hv⟩ := (candidateExists_true_iff fs p).mp hc
      rw [h q hq] at hv
      cases hv

theorem branch_outcome_iff (fs : FS) (path file ref : String) :
    ((if candidateExists fs path then ImportCheckResult.pass
        else ImportCheckResult.unresolved file ref) = ImportCheckResult.pass ↔
      ∃ q ∈ candidatePaths path, fs.existsSync q = true)
    ∧ ((if candidateExists fs path then ImportCheckResult.pass
        else ImportCheckResult.unresolved file ref) =
          ImportCheckResult.unresolved file ref ↔
      ∀ q ∈ candidatePaths path, fs.existsSync q = false) := by
  cases hc : candidateExists fs path with
  | true =>
    rw [if_pos rfl]
    constructor
    · exact iff_of_true rfl ((candidateExists_true_iff fs path).mp hc)
    · apply iff_of_false
      · intro h
        cases h
      · intro hall
        obtain ⟨q, hq, hv⟩ := (candidateExists_true_iff fs path).mp hc
        rw [hall q hq] at hv
        cases hv
  | false =>
    rw [if_neg Bool.false_ne_true]
    constructor
    · apply iff_of_false
      · intro h
        cases h
      · rintro ⟨q, hq, hv⟩
        rw [(candidateExists_false_iff fs path).mp hc q hq] at hv
        cases hv
    · exact iff_of_true rfl ((candidateExists_false_iff fs path).mp hc)

theorem strStartsWith_dot_excludes (p : String)
    (h : strStartsWith p "." = true) :
    strStartsWith p "@/" = false ∧ strStartsWith p "@/assets" = false := by
  obtain ⟨r, hr⟩ := (strStartsWith_iff p ".").mp h
  have hdot : p.data = '.' :: r := hr
  constructor
  · cases hq : strStartsWith p "@/" with
    | false => rfl
    | true =>
      obtain ⟨r2, hr2⟩ := (strStartsWith_iff p "@/").mp hq
      rw [hdot] at hr2
      have : ('.' : Char) = '@' := by
        have h2 : ('.' :: r : List Char) = '@' :: '/' :: r2 := hr2
        exact (List.cons.injEq _ _ _ _).mp h2 |>.1
      cases this
  · cases hq : strStartsWith p "@/assets" with
    | false => rfl
    | true =>
      obtain ⟨r2, hr2⟩ := (strStartsWith_iff p "@/assets").mp hq
      rw [hdot] at hr2
      have : ('.' : Char) = '@' := by
        have h2 : ('.' :: r : List Char) = '@' :: '/' :: 'a' :: 's' :: 's' :: 'e' :: 't' :: 's' :: r2 := hr2
        exact (List.cons.injEq _ _ _ _).mp h2 |>.1
      cases this

/-- C5: for an alias or relative import reference, the check passes exactly
when one of the five fallback entries — the literal candidate, `.ts`,
`.tsx`, `index.ts` inside the candidate, `index.tsx` inside the candidate —
exists, and when none exists the outcome is the reported
`unresolved` value carrying the file and reference, not an exception. -/
theorem c5_resolution_fallbacks (fs : FS) (targetRoot componentFile p : String) :
    (strStartsWith p "@/" = true → strStartsWith p "@/assets" = false →
      ((checkImport fs targetRoot componentFile p = .pass ↔
          ∃ q ∈ candidatePaths (aliasTarget targetRoot p), fs.existsSync q = true)
        ∧ (checkImport fs targetRoot componentFile p =
              .unresolved componentFile p ↔
            ∀ q ∈ candidatePaths (aliasTarget targetRoot p),
              fs.existsSync q = false)))
    ∧ (strStartsWith p "." = true →
      ((checkImport fs targetRoot componentFile p = .pass ↔
          ∃ q ∈ candidatePaths (relativeTarget componentFile p),
            fs.existsSync q = true)
        ∧ (checkImport fs targetRoot componentFile p =
              .unresolved componentFile p ↔
            ∀ q ∈ candidatePaths (relativeTarget componentFile p),
              fs.existsSync q = false))) := by
  constructor
  · intro h1 h2
    have hstep : checkImport fs targetRoot componentFile p =
        (if candidateExists fs (aliasTarget targetRoot p) then ImportCheckResult.pass
          else ImportCheckResult.unresolved componentFile p) := by
      unfold checkImport
      rw [h1, h2]
      simp
    rw [hstep]
    exact branch_outcome_iff fs (aliasTarget targetRoot p) componentFile p
  · intro h3
    obtain ⟨h4, h5⟩ := strStartsWith_dot_excludes p h3
    have hstep : checkImport fs targetRoot componentFile p =
        (if candidateExists fs (relativeTarget componentFile p) then ImportCheckResult.pass
          else ImportCheckResult.unresolved componentFile p) := by
      unfold checkImport
      rw [h3, h4, h5]
      simp
    rw [hstep]
    exact branch_outcome_iff fs (relativeTarget componentFile p) componentFile p

/-- C5 (witness): a concrete alias import whose `.ts` fallback exists
resolves, applied through the fallback characterization. -/
theorem c5_resolution_witness :
    checkImport fsUtil "T" "T/src/components/A.tsx" "@/lib/utils" = .pass :=
  ((c5_resolution_fallbacks fsUtil "T" "T/src/components/A.tsx" "@/lib/utils").1
      (by decide) (by decide)).1.mpr
    ⟨"T/src/lib/utils.ts", by decide, by decide⟩

theorem checkImport_cases (fs : FS) (root file p : String) :
    checkImport fs root file p = .pass ∨
      ((strStartsWith p "." = true ∨
          (strStartsWith p "@/" = true ∧ strStartsWith p "@/assets" = false))
        ∧ checkImport fs root file p = .unresolved file p) := by
  cases hdot : strStartsWith p "." with
  | false =>
    cases hal : strStartsWith p "@/" with
    | false =>
      left
      unfold checkImport
      rw [hdot, hal]
      simp
    | true =>
      cases has : strStartsWith p "@/assets" with
      | true =>
        left
        unfold checkImport
        rw [hdot, hal, has]
        simp
      | false =>
        cases hex : candidateExists fs (aliasTarget root p) with
        | true =>
          left
          unfold checkImport
          rw [hdot, hal, has, hex]
          simp
        | false =>
          right
          refine ⟨Or.inr ⟨rfl, rfl⟩, ?_⟩
          unfold checkImport
          rw [hdot, hal, has, hex]
          simp
  | true =>
    obtain ⟨hal, has⟩ := strStartsWith_dot_excludes p hdot
    cases hex : candidateExists fs (relativeTarget file p) with
    | true =>
      left
      unfold checkImport
      rw [hdot, hal, has, hex]
      simp
    | false =>
      right
      refine ⟨Or.inl rfl, ?_⟩
      unfold checkImport
      rw [hdot, hal, has, hex]
      simp

/-- C2 (counterexample): an alias reference with the `@/assets` marker is
exempt from the resolution check — with an empty filesystem nothing
resolves, the only import of the sampled component is `@/assets/logo.png`, an
alias reference that fails every fallback, and the per-file check still
passes. -/
theorem c2_assets_exemption_counterexample :
    strStartsWith "@/assets/logo.png" "@/" = true
    ∧ candidateExists fsAssetsOnly (aliasTarget "T" "@/assets/logo.png") = false
    ∧ extractImports (fsAssetsOnly.readFile "T/src/components/Logo.tsx") =
        ["@/assets/logo.png"]
    ∧ prop2FileCheck fsAssetsOnly "T" "T/src/components/Logo.tsx" = true := by
  refine ⟨rfl, rfl, rfl, rfl⟩

/-- C2 (amended): every extracted alias or relative import reference EXCEPT
those beginning with `@/assets` (exempted pending asset migration) is
subjected to the resolution check, and the per-file import property fails
exactly when some non-exempt alias or relative reference fails to resolve. -/
theorem c2_import_check_amended (fs : FS) (targetRoot componentFile : String) :
    prop2FileCheck fs targetRoot componentFile = false ↔
      ∃ p ∈ extractImports (fs.readFile componentFile),
        (strStartsWith p "." = true ∨
          (strStartsWith p "@/" = true ∧ strStartsWith p "@/assets" = false))
        ∧ checkImport fs targetRoot componentFile p =
            .unresolved componentFile p := by
  constructor
  · intro h
    by_contra hno
    have hall : prop2FileCheck fs targetRoot componentFile = true := by
      unfold prop2FileCheck
      rw [List.all_eq_true]
      intro p hp
      rcases checkImport_cases fs targetRoot componentFile p with hc | ⟨hcls, hc⟩
      · simp [hc]
      · exact absurd ⟨p, hp, hcls, hc⟩ hno
    rw [hall] at h
    cases h
  · rintro ⟨p, hp, hcls, hunres⟩
    cases hall : prop2FileCheck fs targetRoot componentFile with
    | false => rfl
    | true =>
      exfalso
      unfold prop2FileCheck at hall
      have := List.all_eq_true.mp hall p hp
      simp only [decide_eq_true_eq] at this
      rw [hunres] at this
      cases this

/-- C2 (witness): the amended statement at a concrete filesystem whose
sampled component has one unresolvable relative import. -/
theorem c2_import_check_witness :
    prop2FileCheck fsMissing "T" "T/src/components/B.tsx" = false :=
  (c2_import_check_amended fsMissing "T" "T/src/components/B.tsx").mpr
    ⟨"./missing", by decide, Or.inl (by decide), by decide⟩

/-- C9: for every file the Property 1 universe can contain — a path of the
form `sourceRoot/src/components/<rel>` — the target path is the target
components directory joined with the relative path, the basename and
extension assertions hold by construction, and the value of the predicate is
exactly the existence of that constructed target path. -/
theorem c9_target_path_by_construction (fs : FS) (sourceRoot targetRoot rel : String) :
    prop1Check fs sourceRoot targetRoot
        (pathJoin (pathJoin sourceRoot "src/components") rel)
      = fs.existsSync (pathJoin (pathJoin targetRoot "src/components") rel)
    ∧ basenameStr (pathJoin (pathJoin targetRoot "src/components") rel)
      = basenameStr (pathJoin (pathJoin sourceRoot "src/components") rel)
    ∧ extnameStr (pathJoin (pathJoin targetRoot "src/components") rel)
      = extnameStr (pathJoin (pathJoin sourceRoot "src/components") rel) := by
  have hshape : ∀ root : String,
      (pathJoin (pathJoin root "src/components") rel).data
        = (root.data ++ '/' :: ("src/components".data)) ++ '/' :: rel.data := by
    intro root
    rw [pathJoin_data, pathJoin_data]
  have hsurround : ∀ root : String,
      (pathJoin (pathJoin root "src/components") rel).data
        = root.data ++ (("/src/components/".data) ++ rel.data) := by
    intro root
    rw [hshape root]
    have hlit : ("/src/components/".data : List Char) =
        '/' :: ("src/components".data) ++ ['/'] := by decide
    rw [hlit, List.append_assoc, List.append_assoc]
    simp
  have hguard : containsStr (pathJoin (pathJoin sourceRoot "src/components") rel)
      "/src/components/" = true := by
    unfold containsStr
    rw [hsurround sourceRoot, ← List.append_assoc]
    have := hasInfix_of_surround ("/src/components/".data)
      sourceRoot.data rel.data
    rw [← List.append_assoc] at this
    exact this
  have hrel : relativeStr (pathJoin sourceRoot "src/components")
      (pathJoin (pathJoin sourceRoot "src/components") rel) = rel := by
    unfold relativeStr
    have hbase : ((pathJoin sourceRoot "src/components") ++ "/").data
        = (pathJoin sourceRoot "src/components").data ++ ['/'] := by
      rw [strData_append]
    have hp : (pathJoin (pathJoin sourceRoot "src/components") rel).data
        = ((pathJoin sourceRoot "src/components").data ++ ['/']) ++ rel.data := by
      rw [pathJoin_data, List.append_assoc]
      simp
    rw [hbase, hp, stripPfx_self_append]
  have hbas : ∀ root : String,
      basenameStr (pathJoin (pathJoin root "src/components") rel)
        = basenameStr rel := by
    intro root
    unfold basenameStr
    rw [hshape root, basenameChars_append]
  have hext : ∀ root : String,
      extnameStr (pathJoin (pathJoin root "src/components") rel)
        = extnameStr rel := by
    intro root
    unfold extnameStr
    rw [hshape root, basenameChars_append]
  refine ⟨?_, ?_, ?_⟩
  · unfold prop1Check
    rw [if_pos hguard]
    simp only [hrel]
    rw [hbas targetRoot, hbas sourceRoot, hext targetRoot, hext sourceRoot]
    simp
  · rw [hbas targetRoot, hbas sourceRoot]
  · rw [hext targetRoot, hext sourceRoot]

/-- C10 (counterexample): the whitespace runs of the import regex match
newlines, so a three-line import statement whose clause core sits on a
single line is recognized and its specifier extracted — extraction is not
limited to single-line statements. -/
theorem c10_multiline_statement_counterexample :
    extractImports "import\nx\nfrom \"./a\"" = ["./a"] := by
  rfl

/-- C10 (amended): import extraction is lexical — it extracts exactly the
quoted specifiers of spans `import`, whitespace, a newline-free chunk,
whitespace, `from`, whitespace, quoted text; the whitespace may span
newlines, so a statement whose clause core sits on one line is extracted
even across lines, while a side-effect-only import, an import whose braced
clause itself spans lines, an export-from re-export, and a dynamic
`import()` call each yield no extracted reference. -/
theorem c10_lexical_extraction_amended :
    extractImports "import x from \"./y\"" = ["./y"]
    ∧ extractImports "import\nx\nfrom \"./a\"" = ["./a"]
    ∧ extractImports "import \"./styles.css\"" = []
    ∧ extractImports "import \x7b\n  a,\n  b\n\x7d from \"./x\"" = []
    ∧ extractImports "export \x7b a \x7d from \"./x\"" = []
    ∧ extractImports "const m = import(\"./x\")" = [] := by
  refine ⟨rfl, rfl, rfl, rfl, rfl, rfl⟩

theorem dropWhile_space_eq_colon (r m : List Char) :
    r.dropWhile isSpaceChar = ':' :: m ↔
      ∃ ws, (∀ c ∈ ws, isSpaceChar c = true) ∧ r = ws ++ ':' :: m := by
  constructor
  · intro h
    refine ⟨r.takeWhile isSpaceChar, fun c hc => mem_takeWhile_sat r c hc, ?_⟩
    conv_lhs => rw [← List.takeWhile_append_dropWhile isSpaceChar r]
    rw [h]
  · rintro ⟨ws, hws, rfl⟩
    rw [dropWhile_all_append ws (':' :: m) hws,
      List.dropWhile_cons_of_neg (by decide)]

theorem matchVarAt_some (nm : String) (cs r : List Char)
    (hs : stripPfx ('-' :: '-' :: nm.data) cs = some r) :
    matchVarAt nm cs =
      (match r.dropWhile isSpaceChar with
        | c :: _ => (c = ':' : Bool)
        | [] => false) := by
  unfold matchVarAt
  rw [hs]

theorem matchVarAt_none (nm : String) (cs : List Char)
    (hs : stripPfx ('-' :: '-' :: nm.data) cs = none) :
    matchVarAt nm cs = false := by
  unfold matchVarAt
  rw [hs]

theorem matchVarAt_iff (nm : String) (cs : List Char) :
    matchVarAt nm cs = true ↔
      ∃ ws post, (∀ c ∈ ws, isSpaceChar c = true) ∧
        cs = '-' :: '-' :: (nm.data ++ (ws ++ ':' :: post)) := by
  cases hs : stripPfx ('-' :: '-' :: nm.data) cs with
  | none =>
    rw [matchVarAt_none nm cs hs]
    constructor
    · intro h
      cases h
    · rintro ⟨ws, post, hws, hcs⟩
      have : stripPfx ('-' :: '-' :: nm.data) cs = some (ws ++ ':' :: post) := by
        apply (stripPfx_eq_some _ cs _).mpr
        rw [hcs]
        rfl
      rw [this] at hs
      cases hs
  | some r =>
    have hr : cs = ('-' :: '-' :: nm.data) ++ r :=
      (stripPfx_eq_some ('-' :: '-' :: nm.data) cs r).mp hs
    rw [matchVarAt_some nm cs r hs]
    constructor
    · intro h
      cases hdw : r.dropWhile isSpaceChar with
      | nil =>
        rw [hdw] at h
        cases h
      | cons d dr =>
        rw [hdw] at h
        have hd : d = ':' := by simpa using h
        subst hd
        obtain ⟨ws, hws, hreq⟩ := (dropWhile_space_eq_colon r dr).mp hdw
        exact ⟨ws, dr, hws, by rw [hr, hreq]; simp [List.cons_append]⟩
    · rintro ⟨ws, post, hws, hcs⟩
      have hreq : r = ws ++ ':' :: post := by
        have h2 : ('-' :: '-' :: nm.data) ++ r =
            ('-' :: '-' :: nm.data) ++ (ws ++ ':' :: post) := by
          rw [← hr]
          exact hcs
        exact List.append_cancel_left h2
      rw [(dropWhile_space_eq_colon r post).mpr ⟨ws, hws, hreq⟩]
      simp

theorem testVarPattern_iff (nm : String) :
    ∀ cs, testVarPattern nm cs = true ↔
      ∃ pre suf, cs = pre ++ suf ∧ matchVarAt nm suf = true := by
  intro cs
  induction cs with
  | nil =>
    constructor
    · intro h
      cases h
    · rintro ⟨pre, suf, he, hm⟩
      obtain ⟨h1, h2⟩ := List.append_eq_nil.mp he.symm
      rw [h2] at hm
      cases hm
  | cons c rest ih =>
    simp only [testVarPattern, Bool.or_eq_true]
    constructor
    · rintro (h | h)
      · exact ⟨[], c :: rest, rfl, h⟩
      · obtain ⟨pre, suf, he, hm⟩ := ih.mp h
        exact ⟨c :: pre, suf, by rw [List.cons_append, ← he], hm⟩
    · rintro ⟨pre, suf, he, hm⟩
      cases pre with
      | nil =>
        left
        rw [List.nil_append] at he
        rw [he]
        exact hm
      | cons a pre' =>
        right
        apply ih.mpr
        rw [List.cons_append] at he
        obtain ⟨h1, h2⟩ := (List.cons.injEq _ _ _ _).mp he
        exact ⟨pre', suf, h2, hm⟩

/-- C8: a source symbol is reported preserved exactly when the target text
contains the double-hyphen marker, the exact identifier, optional
whitespace, and a colon as a contiguous substring; `--primary: #fff;` puts
`primary` into the extracted set, and a target without a `--primary`
declaration reports `primary` as unpreserved. -/
theorem c8_preservation_iff :
    (∀ nm t : String, cssVarTest nm t = true ↔
      ∃ pre ws post, (∀ c ∈ ws, isSpaceChar c = true) ∧
        t.data = pre ++ ('-' :: '-' :: (nm.data ++ (ws ++ ':' :: post))))
    ∧ extractNames "--primary: #fff;" = ["primary"]
    ∧ unpreservedNames (extractNames "--primary: #fff;") "body color: red;" =
        ["primary"] := by
  refine ⟨?_, rfl, rfl⟩
  intro nm t
  unfold cssVarTest
  rw [testVarPattern_iff]
  constructor
  · rintro ⟨pre, suf, he, hm⟩
    obtain ⟨ws, post, hws, hsuf⟩ := (matchVarAt_iff nm suf).mp hm
    exact ⟨pre, ws, post, hws, by rw [he, hsuf]⟩
  · rintro ⟨pre, ws, post, hws, ht⟩
    exact ⟨pre, '-' :: '-' :: (nm.data ++ (ws ++ ':' :: post)), ht,
      (matchVarAt_iff nm _).mpr ⟨ws, post, hws, rfl⟩⟩

/-- C8 (witness): the characterization applied at a concrete name and
target text containing the declaration with interior whitespace. -/
theorem c8_preservation_witness : cssVarTest "primary" "x--primary :1" = true :=
  (c8_preservation_iff.1 "primary" "x--primary :1").mpr
    ⟨['x'], [' '], ['1'], by decide, by decide⟩

theorem tryMatchVar_dashdash (R : List Char) :
    tryMatchVar ('-' :: '-' :: R) =
      (match R.takeWhile isNameChar with
        | [] => none
        | n :: nm =>
          match (R.dropWhile isNameChar).dropWhile isSpaceChar with
          | c :: r2 =>
            if c = ':' then some (String.mk (n :: nm), r2) else none
          | [] => none) := by
  simp [tryMatchVar]

theorem tryMatchVar_single (c : Char) : tryMatchVar [c] = none := rfl

theorem tryMatchVar_not_dash {c : Char} (l : List Char) (h : ¬(c = '-')) :
    tryMatchVar (c :: l) = none := by
  cases l with
  | nil => rfl
  | cons d rest => simp [tryMatchVar, h]

theorem tryMatchVar_second_not_dash {c2 : Char} (c1 : Char) (l : List Char)
    (h : ¬(c2 = '-')) : tryMatchVar (c1 :: c2 :: l) = none := by
  simp [tryMatchVar, h]

theorem safeEndChar_spec {c : Char} (h : safeEndChar c = true) :
    isNameChar c = false ∧ isSpaceChar c = false := by
  unfold safeEndChar at h
  constructor
  · cases hn : isNameChar c with
    | false => rfl
    | true => rw [hn] at h; simp at h
  · cases hn : isSpaceChar c with
    | false => rfl
    | true => rw [hn] at h; simp at h

theorem endsSafe_of_str (s : String) (h : endsSafeStr s = true) :
    EndsSafe s.data := by
  intro c hc
  unfold endsSafeStr at h
  rw [hc] at h
  exact h

theorem tryMatchVar_split (x y : List Char) (hne : x ≠ []) (hs : EndsSafe x) :
    tryMatchVar (x ++ y) = (tryMatchVar x).map (fun pr => (pr.1, pr.2 ++ y))
    ∧ (∀ nm r, tryMatchVar x = some (nm, r) →
        EndsSafe r ∧ r.length + 2 ≤ x.length) := by
  cases x with
  | nil => cases hne rfl
  | cons c1 tail =>
    cases tail with
    | nil =>
      have hc1 : safeEndChar c1 = true := hs c1 (by simp)
      have hcd : ¬(c1 = '-') := by
        intro he
        rw [he] at hc1
        exact absurd hc1 (by decide)
      constructor
      · cases y with
        | nil => simp
        | cons d ds =>
          rw [show ([c1] ++ d :: ds) = c1 :: d :: ds from rfl,
            tryMatchVar_not_dash (d :: ds) hcd, tryMatchVar_single c1]
          rfl
      · intro nm r h
        rw [tryMatchVar_single c1] at h
        cases h
    | cons c2 rest =>
      by_cases h1 : c1 = '-'
      · by_cases h2 : c2 = '-'
        · subst h1
          subst h2
          cases rest with
          | nil =>
            exfalso
            have := hs '-' (by decide)
            exact absurd this (by decide)
          | cons r0 rs =>
            have hR : (r0 :: rs) ≠ [] := by simp
            obtain ⟨cl, hcl⟩ := getLast?_of_ne_nil (r0 :: rs) hR
            have hclsafe : safeEndChar cl = true := by
              apply hs
              rw [getLast?_cons_of_ne '-' ('-' :: r0 :: rs) (by simp),
                getLast?_cons_of_ne '-' (r0 :: rs) hR]
              exact hcl
            obtain ⟨hclname, hclspace⟩ := safeEndChar_spec hclsafe
            have hstopn : ∃ c ∈ (r0 :: rs), isNameChar c = false :=
              ⟨cl, getLast?_mem _ cl hcl, hclname⟩
            have htw := takeWhile_app_of_stop (r0 :: rs) y hstopn
            obtain ⟨hdw, hdwne⟩ := dropWhile_app_of_stop (r0 :: rs) y hstopn
            have hr1last : ((r0 :: rs).dropWhile isNameChar).getLast? = some cl := by
              rw [getLast?_dropWhile (r0 :: rs) hdwne]
              exact hcl
            have hstops : ∃ c ∈ (r0 :: rs).dropWhile isNameChar, isSpaceChar c = false :=
              ⟨cl, getLast?_mem _ cl hr1last, hclspace⟩
            obtain ⟨hdw2, hdw2ne⟩ :=
              dropWhile_app_of_stop ((r0 :: rs).dropWhile isNameChar) y hstops
            have hr2last :
                (((r0 :: rs).dropWhile isNameChar).dropWhile isSpaceChar).getLast?
                  = some cl := by
              rw [getLast?_dropWhile ((r0 :: rs).dropWhile isNameChar) hdw2ne]
              exact hr1last
            rw [show (('-' :: '-' :: r0 :: rs) ++ y) = '-' :: '-' :: ((r0 :: rs) ++ y)
                from rfl,
              tryMatchVar_dashdash ((r0 :: rs) ++ y), tryMatchVar_dashdash (r0 :: rs),
              htw, hdw, hdw2]
            cases htk : (r0 :: rs).takeWhile isNameChar with
            | nil =>
              constructor
              · rfl
              · intro nm r h
                simp at h
            | cons n nmtl =>
              cases hr2 : ((r0 :: rs).dropWhile isNameChar).dropWhile isSpaceChar with
              | nil => exact absurd hr2 hdw2ne
              | cons d dr =>
                by_cases hd : d = ':'
                · subst hd
                  constructor
                  · simp
                  · intro nm' r' h
                    simp at h
                    obtain ⟨he1, he2⟩ := h
                    subst he2
                    constructor
                    · intro cc hcc
                      have hdr : dr ≠ [] := by
                        intro hd0
                        rw [hd0] at hcc
                        cases hcc
                      have hlast : dr.getLast? = some cl := by
                        rw [← getLast?_cons_of_ne ':' dr hdr, ← hr2]
                        exact hr2last
                      rw [hlast] at hcc
                      injection hcc with heq
                      rw [← heq]
                      exact hclsafe
                    · have hlen1 : (':' :: dr).length ≤
                          (List.dropWhile isNameChar (r0 :: rs)).length := by
                        rw [← hr2]
                        exact length_dropWhile_le isSpaceChar _
                      have hlen2 : (List.dropWhile isNameChar (r0 :: rs)).length ≤
                          (r0 :: rs).length :=
                        length_dropWhile_le isNameChar _
                      simp only [List.length_cons] at hlen1 hlen2 ⊢
                      omega
                · constructor
                  · simp [hd]
                  · intro nm' r' h
                    simp [hd] at h
        · have hx : tryMatchVar (c1 :: c2 :: rest) = none :=
            tryMatchVar_second_not_dash c1 rest h2
          have hxy : tryMatchVar ((c1 :: c2 :: rest) ++ y) = none := by
            rw [show ((c1 :: c2 :: rest) ++ y) = c1 :: c2 :: (rest ++ y) from rfl]
            exact tryMatchVar_second_not_dash c1 (rest ++ y) h2
          constructor
          · rw [hx, hxy]
            rfl
          · intro nm r h
            rw [hx] at h
            cases h
      · constructor
        · rw [show ((c1 :: c2 :: rest) ++ y) = c1 :: (c2 :: rest ++ y) from rfl,
            tryMatchVar_not_dash _ h1, tryMatchVar_not_dash _ h1]
          rfl
        · intro nm r h
          rw [tryMatchVar_not_dash _ h1] at h
          cases h

theorem tryMatchVar_length :
    ∀ (cs : List Char) (nm : String) (r : List Char),
      tryMatchVar cs = some (nm, r) → r.length < cs.length := by
  intro cs nm r h
  cases cs with
  | nil => cases h
  | cons c1 tail =>
    cases tail with
    | nil =>
      rw [tryMatchVar_single c1] at h
      cases h
    | cons c2 rest =>
      by_cases h1 : c1 = '-'
      · by_cases h2 : c2 = '-'
        · subst h1
          subst h2
          rw [tryMatchVar_dashdash rest] at h
          cases htk : rest.takeWhile isNameChar with
          | nil =>
            rw [htk] at h
            cases h
          | cons n nmtl =>
            rw [htk] at h
            cases hdw : (rest.dropWhile isNameChar).dropWhile isSpaceChar with
            | nil =>
              rw [hdw] at h
              cases h
            | cons d dr =>
              rw [hdw] at h
              by_cases hd : d = ':'
              · subst hd
                simp at h
                obtain ⟨_, he2⟩ := h
                have hlen1 : (':' :: dr).length ≤
                    (rest.dropWhile isNameChar).length := by
                  rw [← hdw]
                  exact length_dropWhile_le isSpaceChar _
                have hlen2 : (rest.dropWhile isNameChar).length ≤ rest.length :=
                  length_dropWhile_le isNameChar _
                rw [← he2]
                simp only [List.length_cons] at hlen1 ⊢
                omega
              · simp [hd] at h
        · rw [tryMatchVar_second_not_dash c1 rest h2] at h
          cases h
      · rw [tryMatchVar_not_dash _ h1] at h
        cases h

theorem scanVarsFuel_congr :
    ∀ (f1 f2 : Nat) (cs : List Char), cs.length ≤ f1 → cs.length ≤ f2 →
      scanVarsFuel f1 cs = scanVarsFuel f2 cs := by
  intro f1
  induction f1 with
  | zero =>
    intro f2 cs h1 _
    have : cs = [] := by
      cases cs with
      | nil => rfl
      | cons c rest => simp at h1
    rw [this]
    cases f2 with
    | zero => rfl
    | succ m => rfl
  | succ k ih =>
    intro f2 cs h1 h2
    cases cs with
    | nil =>
      cases f2 with
      | zero => rfl
      | succ m => rfl
    | cons c rest =>
      cases f2 with
      | zero => simp at h2
      | succ m =>
        simp only [scanVarsFuel]
        cases htm : tryMatchVar (c :: rest) with
        | none =>
          have hr : rest.length ≤ k := by
            simp only [List.length_cons] at h1
            omega
          have hr2 : rest.length ≤ m := by
            simp only [List.length_cons] at h2
            omega
          exact ih m rest hr hr2
        | some pr =>
          obtain ⟨nm, r⟩ := pr
          have hlt := tryMatchVar_length (c :: rest) nm r htm
          simp only [List.length_cons] at hlt h1 h2
          have hr : r.length ≤ k := by omega
          have hr2 : r.length ≤ m := by omega
          exact congrArg (fun t => nm :: t) (ih m r hr hr2)

theorem scanVars_append :
    ∀ (n : Nat) (x y : List Char), x.length ≤ n → EndsSafe x →
      scanVarsFuel (x ++ y).length (x ++ y) =
        scanVarsFuel x.length x ++ scanVarsFuel y.length y := by
  intro n
  induction n with
  | zero =>
    intro x y hx _
    have : x = [] := by
      cases x with
      | nil => rfl
      | cons c rest => simp at hx
    rw [this]
    simp [scanVarsFuel]
  | succ k ih =>
    intro x y hx hs
    cases x with
    | nil => simp [scanVarsFuel]
    | cons c rest =>
      obtain ⟨hmap, hsome⟩ := tryMatchVar_split (c :: rest) y (by simp) hs
      cases htm : tryMatchVar (c :: rest) with
      | none =>
        have happ : tryMatchVar ((c :: rest) ++ y) = none := by
          rw [hmap, htm]
          rfl
        have hsrest : EndsSafe rest := by
          intro d hd
          apply hs
          have hrne : rest ≠ [] := by
            intro h0
            rw [h0] at hd
            cases hd
          rw [getLast?_cons_of_ne c rest hrne]
          exact hd
        have hlen : ((c :: rest) ++ y).length = (rest ++ y).length + 1 := by
          simp
        rw [hlen]
        rw [show ((c :: rest) ++ y) = c :: (rest ++ y) from rfl] at happ ⊢
        simp only [scanVarsFuel, happ, htm, List.length_cons]
        have hrk : rest.length ≤ k := by
          simp only [List.length_cons] at hx
          omega
        exact ih rest y hrk hsrest
      | some pr =>
        obtain ⟨nm, r⟩ := pr
        obtain ⟨hsafe_r, hlen_r⟩ := hsome nm r htm
        have happ : tryMatchVar ((c :: rest) ++ y) = some (nm, r ++ y) := by
          rw [hmap, htm]
          rfl
        have hlen : ((c :: rest) ++ y).length = (rest ++ y).length + 1 := by
          simp
        rw [hlen]
        rw [show ((c :: rest) ++ y) = c :: (rest ++ y) from rfl] at happ ⊢
        simp only [scanVarsFuel, happ, htm, List.length_cons]
        have hrk : r.length ≤ k := by
          simp only [List.length_cons] at hx hlen_r
          omega
        have hfuel1 : (r ++ y).length ≤ rest.length + y.length := by
          simp only [List.length_append, List.length_cons] at hlen_r ⊢
          omega
        rw [scanVarsFuel_congr (rest ++ y).length (r ++ y).length (r ++ y)
          (by simp only [List.length_append] at hfuel1 ⊢; omega) (by simp)]
        rw [ih r y hrk hsafe_r]
        rw [scanVarsFuel_congr rest.length r.length r
          (by simp only [List.length_cons] at hlen_r; omega) (by simp)]
        simp [List.cons_append]

/-- C7 (counterexample): a CSS declaration can straddle the concatenation
junction, so concatenation order changes the extracted set — `--x`
concatenated before `: 1;` declares `x` (the `\s*` of the regex crosses the
inserted newline), while the reverse order declares nothing. -/
theorem c7_concat_order_counterexample :
    sourceVariablesOf (combineCss "--x" ": 1;") ≠
      sourceVariablesOf (combineCss ": 1;" "--x") := by
  decide

/-- C7 (amended): extraction produces a set — duplicate declarations of the
same name collapse to one element — and for style-sheet texts that each end
in a junction-safe character (one that is neither a `[\w-]` name character
nor whitespace, e.g. `;` or a closing brace), extraction from the
concatenation of the two texts is the same set in either order.  When a
declaration straddles the junction, order can matter. -/
theorem c7_extraction_set_amended (a b : String)
    (ha : endsSafeStr a = true) (hb : endsSafeStr b = true) :
    sourceVariablesOf (combineCss a b) = sourceVariablesOf (combineCss b a)
    ∧ sourceVariablesOf "--p: 1;\n--p: 2;" = {"p"} := by
  have key : ∀ u v : String, endsSafeStr u = true →
      extractNames (combineCss u v) = extractNames u ++ extractNames v := by
    intro u v hu
    unfold extractNames
    rw [combineCss_data u v]
    rw [scanVars_append u.data.length u.data ('\n' :: v.data) (Nat.le_refl _)
      (endsSafe_of_str u hu)]
    congr 1
    rw [show ('\n' :: v.data).length = v.data.length + 1 from rfl]
    have hnone : tryMatchVar ('\n' :: v.data) = none := by
      apply tryMatchVar_not_dash
      decide
    simp only [scanVarsFuel, hnone]
  constructor
  · unfold sourceVariablesOf
    rw [key a b ha, key b a hb, List.toFinset_append, List.toFinset_append]
    exact Finset.union_comm _ _
  · decide

/-- C7 (witness): the amended statement at two concrete junction-safe style
sheets, each declaring one custom property. -/
theorem c7_extraction_set_witness :
    sourceVariablesOf (combineCss "--x:1;" "--y:2;") =
      sourceVariablesOf (combineCss "--y:2;" "--x:1;") :=
  (c7_extraction_set_amended "--x:1;" "--y:2;" (by decide) (by decide)).1
